import Mathlib

/-!
Shallow embedding of the in-memory WASI filesystem of `browser_wasi_shim`
(path parser, inode heap, symlink-aware path resolution, directory mutation
operations, and the byte-buffer file-descriptor operations), together with
theorems settling the specification claims about it.

Guest strings (paths, symlink targets, entry names) are modelled as
`List Char`; JS typed-array byte buffers as `List Nat`.  Mutable JS objects
live on an explicit heap addressed by their `ino` (every `Inode` carries a
unique `ino`, so the ino doubles as the object address); stateful methods
take and return the heap (or the file object) explicitly.
-/

namespace BrowserWasiShim

/-- WASI error codes used by the core, treated as an opaque enumeration by
name (their numeric values live in the out-of-scope `wasi_defs` module). -/
inductive Errno where
  | SUCCESS
  | NOENT
  | EXIST
  | NOTDIR
  | ISDIR
  | NOTEMPTY
  | LOOP
  | NOTCAPABLE
  | INVAL
  | PERM
  | BADF
  | NOTSUP
deriving DecidableEq, Repr

/-- WASI file types relevant to the core. -/
inductive Filetype where
  | regular_file
  | directory
  | symbolic_link
  | character_device
deriving DecidableEq, Repr

/-- A path component / directory-entry name. -/
abbrev Name := List Char

/-- The NUL character rejected inside guest paths. -/
def nul : Char := '\x00'

/-- JS `string.split("/")`: splits at every `'/'`, keeping empty segments;
the empty string yields one empty segment. -/
def splitOnSlash : List Char → List Name
  | [] => [[]]
  | c :: rest =>
    match splitOnSlash rest with
    | [] => [[]]
    | s :: ss => if c = '/' then [] :: s :: ss else (c :: s) :: ss

/-- JS `string.endsWith("/")`. -/
def endsWithSlash (s : List Char) : Bool := s.getLast? == some '/'

/-- A parsed guest path: normalized components plus the
"original string ended with a slash" flag (`Path.is_dir`). -/
structure Path where
  parts : List Name
  is_dir : Bool
deriving DecidableEq, Repr

/-- The component loop of `Path.from`: empty and `"."` components are
dropped, `".."` pops the last retained component and fails (`none`,
mapped to NOTCAPABLE by the caller) when there is nothing to pop, and any
other component is pushed. -/
def processComponents : List Name → List Name → Option (List Name)
  | [], acc => some acc
  | c :: cs, acc =>
    if c = [] ∨ c = ['.'] then processComponents cs acc
    else if c = ['.', '.'] then
      match acc with
      | [] => none
      | _ :: _ => processComponents cs acc.dropLast
    else processComponents cs (acc ++ [c])

/-- `Path.from(path)` (named `fromStr` because `from` is a Lean keyword):
rejects absolute paths with NOTCAPABLE, paths containing NUL with INVAL,
then normalizes the slash-separated components. -/
def Path.fromStr (path : List Char) : Errno × Option Path :=
  let is_dir := endsWithSlash path
  if path.head? == some '/' then (.NOTCAPABLE, none)
  else if path.contains nul then (.INVAL, none)
  else
    match processComponents (splitOnSlash path) [] with
    | none => (.NOTCAPABLE, none)
    | some parts => (.SUCCESS, some { parts := parts, is_dir := is_dir })

/-! ## The inode heap -/

/-- The data of one inode object.  A directory maps entry names to the inos
of the entry objects and keeps a non-owning back-reference to its parent
directory's ino (`none` for a parentless directory). -/
inductive Node where
  | file (data : List Nat) («readonly» : Bool)
  | directory (contents : List (Name × Nat)) (parent : Option Nat)
  | symlink (target : List Char)
deriving DecidableEq, Repr

/-- The variant tag reported by `stat().filetype`. -/
def Node.filetype : Node → Filetype
  | .file _ _ => .regular_file
  | .directory _ _ => .directory
  | .symlink _ => .symbolic_link

/-- `this.contents` of a directory object (the TS type system guarantees
this accessor is only reached on a `Directory`). -/
def Node.contents : Node → List (Name × Nat)
  | .directory c _ => c
  | _ => []

/-- JS `Map.prototype.get`. -/
def mapGet : List (Name × Nat) → Name → Option Nat
  | [], _ => none
  | (k, v) :: rest, key => if k = key then some v else mapGet rest key

/-- JS `Map.prototype.set`: updates an existing key in place (keeping its
position in insertion order), otherwise appends. -/
def mapSet : List (Name × Nat) → Name → Nat → List (Name × Nat)
  | [], key, v => [(key, v)]
  | (k, w) :: rest, key, v =>
    if k = key then (key, v) :: rest else (k, w) :: mapSet rest key v

/-- The object heap: each live inode object, addressed by its `ino`. -/
abbrev Heap := List (Nat × Node)

/-- Dereference an object by ino. -/
def heapGet : Heap → Nat → Option Node
  | [], _ => none
  | (i, n) :: rest, ino => if i = ino then some n else heapGet rest ino

/-- Overwrite (or allocate) the object stored at an ino. -/
def heapSet : Heap → Nat → Node → Heap
  | [], ino, node => [(ino, node)]
  | (i, n) :: rest, ino, node =>
    if i = ino then (ino, node) :: rest else (i, n) :: heapSet rest ino node

/-- Whole-system state: the heap plus the global monotone ino counter
(`Inode.next_ino`, initialized to 1). -/
structure Sys where
  heap : Heap
  next_ino : Nat
deriving DecidableEq, Repr

/-- `Inode.issue_ino()`: returns the current counter and increments it. -/
def issue_ino (s : Sys) : Nat × Sys :=
  (s.next_ino, { s with next_ino := s.next_ino + 1 })

/-- `Inode.root_ino()`: the ino reserved for the root directory. -/
def root_ino : Nat := 0

/-- The process-startup state of the ino issuer (`next_ino = 1n`). -/
def initial_sys : Sys := { heap := [], next_ino := 1 }

/-- The inos handed out by `k` consecutive `issue_ino` calls from state
`s`, in call order. -/
def issueSeq (s : Sys) : Nat → List Nat
  | 0 => []
  | k + 1 => (issue_ino s).1 :: issueSeq (issue_ino s).2 k

/-- `Directory.parent_ino()`: the parent's ino, or `root_ino` when the
directory is parentless. -/
def parent_ino (parent : Option Nat) : Nat :=
  match parent with
  | none => root_ino
  | some p => p

/-! ## File content buffer -/

/-- Observable behaviour of `dataResize`: keep a prefix when shrinking,
zero-fill when growing.  (The source additionally plays capacity games
with resizable `ArrayBuffer`s — doubling `maxByteLength` on growth — but
`ArrayBuffer.resize` zero-fills growth and truncates shrinking, so the
byte content is exactly the one modelled here.) -/
def dataResize (data : List Nat) (newDataSize : Nat) : List Nat :=
  if data.length = newDataSize then data
  else if newDataSize < data.length then data.take newDataSize
  else data ++ List.replicate (newDataSize - data.length) 0

/-- `Uint8Array.prototype.set(d, pos)`: overwrite `d.length` bytes starting
at `pos` (callers guarantee the buffer is already large enough). -/
def bufferSetAt (data : List Nat) (pos : Nat) (d : List Nat) : List Nat :=
  data.take pos ++ d ++ data.drop (pos + d.length)

/-- A `File` inode as seen by its open file descriptors: byte buffer plus
the read-only flag fixed at creation. -/
structure FileNode where
  data : List Nat
  «readonly» : Bool
deriving DecidableEq, Repr

/-- An `OpenFile` descriptor: the file object plus the seek position. -/
structure OpenFileSt where
  file : FileNode
  file_pos : Nat
deriving DecidableEq, Repr

/-- `OpenFile.fd_read(size)`: JS `slice` clamps to the available bytes;
the position advances by the number of bytes actually produced. -/
def OpenFile.fd_read (st : OpenFileSt) (size : Nat) :
    (Errno × List Nat) × OpenFileSt :=
  let slice := (st.file.data.drop st.file_pos).take size
  ((.SUCCESS, slice), { st with file_pos := st.file_pos + slice.length })

/-- `OpenFile.fd_pread(size, offset)`. -/
def OpenFile.fd_pread (st : OpenFileSt) (size offset : Nat) :
    (Errno × List Nat) × OpenFileSt :=
  let slice := (st.file.data.drop offset).take size
  ((.SUCCESS, slice), st)

/-- `OpenFile.fd_write(data)`: BADF on a read-only file; otherwise grow the
buffer to cover the write if needed, copy, and advance the position. -/
def OpenFile.fd_write (st : OpenFileSt) (d : List Nat) :
    (Errno × Nat) × OpenFileSt :=
  if st.file.«readonly» then ((.BADF, 0), st)
  else
    let grown :=
      if st.file.data.length < st.file_pos + d.length then
        dataResize st.file.data (st.file_pos + d.length)
      else st.file.data
    let written := bufferSetAt grown st.file_pos d
    ((.SUCCESS, d.length),
     { file := { st.file with data := written },
       file_pos := st.file_pos + d.length })

/-- `OpenFile.fd_pwrite(data, offset)`: like `fd_write` at an explicit
offset, without moving the seek position. -/
def OpenFile.fd_pwrite (st : OpenFileSt) (d : List Nat) (offset : Nat) :
    (Errno × Nat) × OpenFileSt :=
  if st.file.«readonly» then ((.BADF, 0), st)
  else
    let grown :=
      if st.file.data.length < offset + d.length then
        dataResize st.file.data (offset + d.length)
      else st.file.data
    let written := bufferSetAt grown offset d
    ((.SUCCESS, d.length),
     { st with file := { st.file with data := written } })

/-- `OpenFile.fd_allocate(offset, len)`: extends the buffer when it is
smaller than `offset + len`; always succeeds (no read-only check). -/
def OpenFile.fd_allocate (st : OpenFileSt) (offset len : Nat) :
    Errno × OpenFileSt :=
  if offset + len ≤ st.file.data.length then (.SUCCESS, st)
  else
    (.SUCCESS,
     { st with file := { st.file with data := dataResize st.file.data (offset + len) } })

/-- `OpenFile.fd_filestat_set_size(size)`: resizes unconditionally and
succeeds (no read-only check). -/
def OpenFile.fd_filestat_set_size (st : OpenFileSt) (size : Nat) :
    Errno × OpenFileSt :=
  (.SUCCESS, { st with file := { st.file with data := dataResize st.file.data size } })

/-- The open flags consulted by `File.path_open` / `OpenDirectory.path_open`,
decoded from the `oflags` bitmask. -/
structure OpenFlags where
  creat : Bool
  directory : Bool
  excl : Bool
  trunc : Bool
deriving DecidableEq, Repr

/-- `File.path_open(oflags, fs_rights_base, fd_flags)`.
`has_fd_write_right` decodes `fs_rights_base & RIGHTS_FD_WRITE`;
`append_flag` decodes `fd_flags & FDFLAGS_APPEND`.  Returns the descriptor
(or error) together with the file object's post-state. -/
def File.path_open (f : FileNode) (oflags : OpenFlags)
    (has_fd_write_right append_flag : Bool) :
    (Errno × Option OpenFileSt) × FileNode :=
  if f.«readonly» && has_fd_write_right then ((.PERM, none), f)
  else if oflags.trunc then
    if f.«readonly» then ((.PERM, none), f)
    else
      let f1 : FileNode := { f with data := [] }
      ((.SUCCESS, some { file := f1, file_pos := if append_flag then f1.data.length else 0 }), f1)
  else
    ((.SUCCESS, some { file := f, file_pos := if append_flag then f.data.length else 0 }), f)

/-! ## Path resolution -/

/-- `SYMLOOP_MAX`: the symlink-expansion depth limit. -/
def SYMLOOP_MAX : Nat := 40

/-- `Directory.partsToPathString(parts, isDir)`. -/
def partsToPathString (parts : List Name) (isDir : Bool) : List Char :=
  if parts.length = 0 then []
  else
    let s := List.intercalate ['/'] parts
    if isDir then s ++ ['/'] else s

/-- `Directory.joinPaths(base, addition)`. -/
def joinPaths (base addition : List Char) : List Char :=
  if base.length = 0 then addition
  else if addition.length = 0 then base
  else if endsWithSlash base then base ++ addition
  else base ++ '/' :: addition

/-- `Directory.resolve_path_from(current, parts, isDir, followFinal, depth)`:
recursive component-by-component lookup with symlink expansion.  `current`
is the ino of the directory being walked (always a live `Directory` object
at every reachable call); the result carries the ino of the resolved inode.
A followed symlink re-parses its target joined with the remaining path and
recurses from the same `current` with `depth + 1`, failing with LOOP once
`depth` reaches `SYMLOOP_MAX`. -/
def resolve_path_from (h : Heap) (current : Nat) (parts : List Name)
    (isDir followFinal : Bool) (depth : Nat) : Errno × Option Nat :=
  match heapGet h current with
  | none => (.NOENT, none)  -- unreachable: `current` is a live object reference
  | some curNode =>
    match parts with
    | [] =>
      if isDir && !(curNode.filetype == .directory) then (.NOTDIR, none)
      else (.SUCCESS, some current)
    | component :: rest =>
      match mapGet curNode.contents component with
      | none => (.NOENT, none)
      | some childIno =>
        match heapGet h childIno with
        | none => (.NOENT, none)  -- unreachable: `contents` holds live references
        | some child =>
          let hasRest := decide (0 < rest.length)
          let restStr := partsToPathString rest isDir
          match child with
          | .symlink target =>
            let shouldFollow := if hasRest then true else followFinal || isDir
            if !shouldFollow then
              if hasRest || isDir then (.NOTDIR, none)
              else (.SUCCESS, some childIno)
            else if SYMLOOP_MAX ≤ depth then (.LOOP, none)
            else
              let targetPath :=
                if 0 < restStr.length then joinPaths target restStr
                else if isDir && !endsWithSlash target then target ++ ['/']
                else target
              match Path.fromStr targetPath with
              | (targetRet, none) => (targetRet, none)
              | (_, some tp) =>
                resolve_path_from h current tp.parts tp.is_dir followFinal (depth + 1)
          | _ =>
            if !hasRest then
              if isDir && !(child.filetype == .directory) then (.NOTDIR, none)
              else (.SUCCESS, some childIno)
            else
              match child with
              | .directory _ _ => resolve_path_from h childIno rest isDir followFinal depth
              | _ => (.NOTDIR, none)
termination_by (SYMLOOP_MAX - depth, parts.length)
decreasing_by
  · apply Prod.Lex.left
    omega
  · apply Prod.Lex.right
    simp

/-- The record returned by `Directory.get_parent_dir_and_entry_for_path`:
status, the resolved parent directory's ino, the final component, and the
ino of the entry under that name (when present). -/
structure ParentLookup where
  ret : Errno
  parent_entry : Option Nat
  filename : Option Name
  entry : Option Nat
deriving DecidableEq, Repr

/-- `Directory.get_parent_dir_and_entry_for_path(path, allow_undefined)`.
The source pops the final component off `path.parts` *in place*
(`path.parts.pop()`); the mutated `Path` value is returned as the second
component of the result. -/
def get_parent_dir_and_entry_for_path (h : Heap) (self : Nat) (path : Path)
    (allow_undefined : Bool) : ParentLookup × Path :=
  match path.parts.getLast? with
  | none => (⟨.INVAL, none, none, none⟩, path)
  | some filename =>
    let popped : Path := { path with parts := path.parts.dropLast }
    let plr : ParentLookup :=
      match resolve_path_from h self popped.parts true true 0 with
      | (parent_ret, none) => ⟨parent_ret, none, none, none⟩
      | (_, some parentIno) =>
        match heapGet h parentIno with
        | some (.directory contents _) =>
          (match mapGet contents filename with
           | none =>
             if !allow_undefined then ⟨.NOENT, none, none, none⟩
             else ⟨.SUCCESS, some parentIno, some filename, none⟩
           | some entry => ⟨.SUCCESS, some parentIno, some filename, some entry⟩)
        | _ => ⟨.NOTDIR, none, none, none⟩
    (plr, popped)

/-! ## Directory mutation operations -/

/-- The occupied-target policy of `OpenDirectory.path_link` (source lines
416–441): `none` means the overwrite is allowed, `some e` the error
returned.  Note the source only reaches NOTEMPTY when `allow_dir` holds
and returns EXIST for a directory-over-directory link otherwise. -/
def linkOverwriteCheck (inodeNode entryNode : Node) (allow_dir : Bool) :
    Option Errno :=
  let source_is_dir := inodeNode.filetype == .directory
  let target_is_dir := entryNode.filetype == .directory
  if source_is_dir && target_is_dir then
    if allow_dir then
      match entryNode with
      | .directory contents _ =>
        if contents.length = 0 then none else some .NOTEMPTY
      | _ => some .EXIST
    else some .EXIST
  else if source_is_dir && !target_is_dir then some .NOTDIR
  else if !source_is_dir && target_is_dir then some .ISDIR
  else if inodeNode.filetype == .regular_file && entryNode.filetype == .regular_file then
    none
  else some .EXIST

/-- The occupied-entry step of `path_link` (source lines 416–441) applied
to the optional existing entry: `none` when the target name is free or the
overwrite is allowed, otherwise the error to return. -/
def linkEntryCheck (h : Heap) (inodeNode : Node) (allow_dir : Bool) :
    Option Nat → Option Errno
  | none => none
  | some entryIno =>
    match heapGet h entryIno with
    | none => none  -- unreachable: entries are live references
    | some entryNode => linkOverwriteCheck inodeNode entryNode allow_dir

/-- `OpenDirectory.path_link(path_str, inode, allow_dir)` over the heap:
parse, reject trailing-slash paths with NOENT, look up parent and target,
apply the overwrite matrix, the `allow_dir` PERM guard, and only then
mutate (re-parenting a linked directory and storing the source ino under
the new name). -/
def path_link (s : Sys) (self : Nat) (path_str : List Char) (inode : Nat)
    (allow_dir : Bool) : Errno × Sys :=
  match Path.fromStr path_str with
  | (path_ret, none) => (path_ret, s)
  | (_, some path) =>
    if path.is_dir then (.NOENT, s)
    else
      let plr := (get_parent_dir_and_entry_for_path s.heap self path true).1
      match plr.parent_entry, plr.filename with
      | some parentIno, some filename =>
        match heapGet s.heap inode with
        | none => (.NOENT, s)  -- unreachable: `inode` is a live object reference
        | some inodeNode =>
          match linkEntryCheck s.heap inodeNode allow_dir plr.entry with
          | some e => (e, s)
          | none =>
            if !allow_dir && inodeNode.filetype == .directory then (.PERM, s)
            else
              -- if (inode instanceof Directory) inode.set_parent(parent_entry)
              let s1 :=
                match heapGet s.heap inode with
                | some (.directory c _) =>
                  { s with heap := heapSet s.heap inode (.directory c (some parentIno)) }
                | _ => s
              -- parent_entry.contents.set(filename, inode)
              match heapGet s1.heap parentIno with
              | some (.directory pc pp) =>
                (.SUCCESS,
                 { s1 with
                     heap := heapSet s1.heap parentIno (.directory (mapSet pc filename inode) pp) })
              | _ => (.NOENT, s1)  -- unreachable: the parent is a live Directory
      | _, _ => (plr.ret, s)

/-- `Directory.create_symlink_for_path(path_str, target)` over the system
state: reject NUL / absolute targets with INVAL before any lookup; a
trailing-slash path never creates a symlink (NOENT / EXIST / NOTDIR per
the existing entry); otherwise EXIST when occupied, else allocate a fresh
`Symlink` inode and store it under the final name. -/
def create_symlink_for_path (s : Sys) (self : Nat) (path_str target : List Char) :
    (Errno × Option Nat) × Sys :=
  if target.contains nul || target.head? == some '/' then ((.INVAL, none), s)
  else
    match Path.fromStr path_str with
    | (path_ret, none) => ((path_ret, none), s)
    | (_, some path) =>
      let plr := (get_parent_dir_and_entry_for_path s.heap self path true).1
      match plr.parent_entry, plr.filename with
      | some parentIno, some filename =>
        if path.is_dir then
          match plr.entry with
          | none => ((.NOENT, none), s)
          | some entryIno =>
            match heapGet s.heap entryIno with
            | some entryNode =>
              if entryNode.filetype == .directory then ((.EXIST, none), s)
              else ((.NOTDIR, none), s)
            | none => ((.NOTDIR, none), s)  -- unreachable: entries are live references
        else
          match plr.entry with
          | some _ => ((.EXIST, none), s)
          | none =>
            -- const symlink = new Symlink(target)  (allocates a fresh ino)
            let (ino, s1) := issue_ino s
            let s2 : Sys := { s1 with heap := heapSet s1.heap ino (.symlink target) }
            match heapGet s2.heap parentIno with
            | some (.directory pc pp) =>
              ((.SUCCESS, some ino),
               { s2 with
                   heap := heapSet s2.heap parentIno (.directory (mapSet pc filename ino) pp) })
            | _ => ((.NOTDIR, none), s2)  -- unreachable: the parent is a live Directory
      | _, _ => ((plr.ret, none), s)

/-! ## Directory enumeration -/

/-- One WASI directory entry as produced by `fd_readdir_single`. -/
structure Dirent where
  d_next : Nat
  d_ino : Nat
  name : Name
  d_type : Filetype
deriving DecidableEq, Repr

/-- The name `"."`. -/
def dotName : Name := ['.']

/-- The name `".."`. -/
def dotdotName : Name := ['.', '.']

/-- `OpenDirectory.fd_readdir_single(cookie)` for the open directory whose
object lives at `dirIno`: cookie 0 is `"."` (the directory's own ino),
cookie 1 is `".."` (`parent_ino()`), cookie `n ≥ 2` is the `(n-2)`-th
entry in insertion order carrying `cookie + 1` as the next cookie, and any
cookie at or past `size + 2` ends the sequence without error. -/
def fd_readdir_single (h : Heap) (dirIno : Nat) (cookie : Nat) :
    Errno × Option Dirent :=
  match heapGet h dirIno with
  | some (.directory contents parent) =>
    if cookie = 0 then
      (.SUCCESS, some ⟨1, dirIno, dotName, .directory⟩)
    else if cookie = 1 then
      (.SUCCESS, some ⟨2, parent_ino parent, dotdotName, .directory⟩)
    else if contents.length + 2 ≤ cookie then
      (.SUCCESS, none)
    else
      match contents.get? (cookie - 2) with
      | some (name, entryIno) =>
        match heapGet h entryIno with
        | some entryNode =>
          (.SUCCESS, some ⟨cookie + 1, entryIno, name, entryNode.filetype⟩)
        | none => (.NOENT, none)  -- unreachable: entries are live references
      | none => (.NOENT, none)  -- unreachable: the cookie is below size + 2
  | _ => (.BADF, none)  -- unreachable: the wrapped `dir` is a live Directory

/-! ## A canonical symlink chain (for the symlink-depth claim) -/

/-- The `i`-th chain name: `i + 1` copies of `'a'` (names of pairwise
distinct lengths, containing no `'/'`, no NUL, and never `"."`/`".."`). -/
def chainName (i : Nat) : Name := List.replicate (i + 1) 'a'

/-- The entries of the chain directory: name `i` maps to ino `i + 1`. -/
def chainContents : Nat → List (Name × Nat)
  | 0 => [(chainName 0, 1)]
  | n + 1 => chainContents n ++ [(chainName (n + 1), n + 2)]

/-- The node at ino `i + 1`: for `i < n` a symlink to the next chain name,
at `i = n` the real file ending the chain. -/
def chainNode (n i : Nat) : Node :=
  if i < n then .symlink (chainName (i + 1)) else .file [] false

/-- A heap holding one directory (ino 0) whose entries form a chain of `n`
symlinks followed by a real file at ino `n + 1`. -/
def chainHeap (n : Nat) : Heap :=
  (0, .directory (chainContents n) none)
    :: (List.range (n + 1)).map (fun i => (i + 1, chainNode n i))

/-! ## Spec-side characterizations of the path parser

These definitions follow the specification's words (split, drop empty and
`"."`, pop on `".."`, fail when nothing is left to pop; a path whose
`".."`s would lexically ascend above the confinement root) and are proved
equivalent to the source-translated `processComponents`. -/

/-- One step of the spec's normalization, phrased as a fold. -/
def specNormalizeStep (acc : Option (List Name)) (c : Name) : Option (List Name) :=
  match acc with
  | none => none
  | some st =>
    if c = [] ∨ c = ['.'] then some st
    else if c = ['.', '.'] then
      match st with
      | [] => none
      | _ :: _ => some st.dropLast
    else some (st ++ [c])

/-- The spec's normalization of a split component list. -/
def specNormalize (cs : List Name) : Option (List Name) :=
  cs.foldl specNormalizeStep (some [])

/-- Number of `".."` components. -/
def dotdotCount (cs : List Name) : Nat :=
  cs.countP (fun c => decide (c = ['.', '.']))

/-- Number of retained (non-empty, non-`"."`, non-`".."`) components. -/
def realCount (cs : List Name) : Nat :=
  cs.countP (fun c => decide (c ≠ [] ∧ c ≠ ['.'] ∧ c ≠ ['.', '.']))

/-- A component list lexically ascends above the confinement root iff some
prefix contains more `".."` components than retained components. -/
def ascendsAboveRoot (cs : List Name) : Prop :=
  ∃ k, realCount (cs.take k) < dotdotCount (cs.take k)

/-! ## Helper lemmas about the map and heap primitives -/

theorem mapGet_mapSet_self (m : List (Name × Nat)) (k : Name) (v : Nat) :
    mapGet (mapSet m k v) k = some v := by
  induction m with
  | nil => simp [mapGet, mapSet]
  | cons hd tl ih =>
    obtain ⟨k', v'⟩ := hd
    by_cases h : k' = k
    · simp [mapGet, mapSet, h]
    · simp [mapGet, mapSet, h, ih]

theorem heapGet_heapSet_self (h : Heap) (i : Nat) (n : Node) :
    heapGet (heapSet h i n) i = some n := by
  induction h with
  | nil => simp [heapGet, heapSet]
  | cons hd tl ih =>
    obtain ⟨j, m⟩ := hd
    by_cases hj : j = i
    · simp [heapGet, heapSet, hj]
    · simp [heapGet, heapSet, hj, ih]

theorem heapGet_heapSet_ne (h : Heap) {i j : Nat} (n : Node) (hij : i ≠ j) :
    heapGet (heapSet h i n) j = heapGet h j := by
  induction h with
  | nil => simp [heapGet, heapSet, hij]
  | cons hd tl ih =>
    obtain ⟨k, m⟩ := hd
    by_cases hk : k = i
    · subst hk
      simp [heapGet, heapSet, hij]
    · simp [heapGet, heapSet, hk, ih]

theorem Path.fromStr_success_is_dir {p : List Char} {q : Path}
    (h : Path.fromStr p = (.SUCCESS, some q)) : q.is_dir = endsWithSlash p := by
  unfold Path.fromStr at h
  split at h
  · simp at h
  · split at h
    · simp at h
    · split at h
      · simp at h
      · simp only [Prod.mk.injEq, Option.some.injEq] at h
        rw [← h.2]

/-! ## Claim C10 -/

/-- **C10, counterexample.**  The claim says every path string ending in
`'/'` makes `path_link` return NOENT; but a trailing-slash string that the
parser rejects (here the absolute path `"/"`) surfaces the parser's error
(NOTCAPABLE) instead. -/
theorem c10_link_trailing_slash_counterexample :
    path_link { heap := [], next_ino := 1 } 0 ['/'] 1 true
      = (.NOTCAPABLE, { heap := [], next_ino := 1 }) ∧
    Errno.NOTCAPABLE ≠ Errno.NOENT := by
  exact ⟨rfl, by decide⟩

/-- **C10, amended.**  For every path string that ends in `'/'` *and passes
path parsing*, `path_link` returns NOENT immediately — before any
resolution of the parent directory and regardless of the source inode, the
`allowDirectory` flag, or whether anything exists at that path — and the
tree is left unchanged. -/
theorem c10_link_trailing_slash_amended (s : Sys) (self : Nat)
    (path_str : List Char) (p : Path) (inode : Nat) (allow_dir : Bool)
    (hslash : endsWithSlash path_str = true)
    (hparse : Path.fromStr path_str = (.SUCCESS, some p)) :
    path_link s self path_str inode allow_dir = (.NOENT, s) := by
  have hd : p.is_dir = true := (Path.fromStr_success_is_dir hparse).trans hslash
  unfold path_link
  rw [hparse]
  simp [hd]

/-- **C10, witness** for the amended theorem at the concrete call
`path_link` on `"a/"`. -/
theorem c10_link_trailing_slash_witness :
    path_link { heap := [], next_ino := 1 } 0 ['a', '/'] 1 true
      = (.NOENT, { heap := [], next_ino := 1 }) := by
  exact c10_link_trailing_slash_amended _ _ _ ⟨[['a']], true⟩ _ _ (by decide) (by decide)

/-! ## Claim C9 -/

/-- **C9, counterexample.**  `get_parent_dir_and_entry_for_path` pops the
final component off the `Path` argument itself (`path.parts.pop()`), not
off a copy: after a call on the one-component path `a`, the path's
component list is empty rather than unchanged. -/
theorem c9_parent_lookup_counterexample :
    (get_parent_dir_and_entry_for_path [] 0 ⟨[['a']], false⟩ true).2
        = ⟨[], false⟩ ∧
    (Path.mk [] false) ≠ ⟨[['a']], false⟩ := by
  exact ⟨rfl, by decide⟩

/-- **C9, amended.**  For every `Path` value `p` with at least one
component, the parent-lookup helper pops the final component off `p`'s own
component sequence: after the call `p`'s component list equals its old
value minus the last component (so it is *not* left unchanged), while the
directory flag is unaffected. -/
theorem c9_parent_lookup_amended (h : Heap) (self : Nat) (p : Path)
    (allow_undefined : Bool) (hne : p.parts ≠ []) :
    (get_parent_dir_and_entry_for_path h self p allow_undefined).2
        = ⟨p.parts.dropLast, p.is_dir⟩ ∧
    (get_parent_dir_and_entry_for_path h self p allow_undefined).2.parts
        ≠ p.parts := by
  rcases p.parts.eq_nil_or_concat with hnil | ⟨ys, y, hcat⟩
  · exact absurd hnil hne
  · rw [List.concat_eq_append] at hcat
    constructor
    · unfold get_parent_dir_and_entry_for_path
      rw [hcat]
      simp
    · unfold get_parent_dir_and_entry_for_path
      rw [hcat]
      simp

/-- **C9, witness** for the amended theorem on the path `a/b`. -/
theorem c9_parent_lookup_witness :
    (get_parent_dir_and_entry_for_path [] 0 ⟨[['a'], ['b']], true⟩ false).2
        = ⟨[['a']], true⟩ ∧
    (get_parent_dir_and_entry_for_path [] 0 ⟨[['a'], ['b']], true⟩ false).2.parts
        ≠ [['a'], ['b']] := by
  exact c9_parent_lookup_amended [] 0 ⟨[['a'], ['b']], true⟩ false (by decide)

/-! ## Claim C3 -/

/-- **C3, counterexample.**  Not every write-class operation checks the
read-only flag: `fd_filestat_set_size` truncates a read-only file and
returns SUCCESS, and `fd_allocate` grows a read-only file and returns
SUCCESS — in both cases mutating the byte buffer. -/
theorem c3_readonly_counterexample :
    OpenFile.fd_filestat_set_size ⟨⟨[1, 2, 3], true⟩, 0⟩ 0
      = (.SUCCESS, ⟨⟨[], true⟩, 0⟩) ∧
    OpenFile.fd_allocate ⟨⟨[], true⟩, 0⟩ 0 5
      = (.SUCCESS, ⟨⟨[0, 0, 0, 0, 0], true⟩, 0⟩) := by
  exact ⟨rfl, rfl⟩

/-- **C3, amended.**  For a `File` whose read-only flag is set: `fd_write`
and `fd_pwrite` fail with BADF, report `nwritten = 0` and leave the whole
descriptor state (buffer and position) unchanged, and `path_open` with the
truncate flag — or with the FD_WRITE right requested — fails with PERM and
leaves the buffer unchanged.  (`fd_filestat_set_size` and `fd_allocate`
are *not* guarded by the read-only flag: they resize and succeed.) -/
theorem c3_readonly_amended (f : FileNode) (hf : f.«readonly» = true) :
    (∀ st : OpenFileSt, st.file = f →
      ∀ d, OpenFile.fd_write st d = ((.BADF, 0), st)) ∧
    (∀ st : OpenFileSt, st.file = f →
      ∀ d off, OpenFile.fd_pwrite st d off = ((.BADF, 0), st)) ∧
    (∀ ofl w ap, ofl.trunc = true →
      File.path_open f ofl w ap = ((.PERM, none), f)) ∧
    (∀ ofl ap, File.path_open f ofl true ap = ((.PERM, none), f)) := by
  refine ⟨?_, ?_, ?_, ?_⟩
  · intro st hst d
    unfold OpenFile.fd_write
    rw [hst, hf]
    simp
  · intro st hst d off
    unfold OpenFile.fd_pwrite
    rw [hst, hf]
    simp
  · intro ofl w ap ht
    unfold File.path_open
    rw [hf, ht]
    cases w <;> simp
  · intro ofl ap
    unfold File.path_open
    rw [hf]
    simp

/-- **C3, witness** for the amended theorem on a concrete read-only file. -/
theorem c3_readonly_witness :
    OpenFile.fd_write ⟨⟨[9], true⟩, 0⟩ [5] = ((.BADF, 0), ⟨⟨[9], true⟩, 0⟩) ∧
    File.path_open ⟨[9], true⟩ ⟨false, false, false, true⟩ false false
      = ((.PERM, none), ⟨[9], true⟩) := by
  exact ⟨(c3_readonly_amended ⟨[9], true⟩ rfl).1 ⟨⟨[9], true⟩, 0⟩ rfl [5],
         (c3_readonly_amended ⟨[9], true⟩ rfl).2.2.1 ⟨false, false, false, true⟩ false false rfl⟩

/-! ## Claim C7 -/

/-- **C7.**  Write/read round-trip and gap semantics of the byte buffer:
writing `d` at offset 0 to a fresh empty writable file yields exactly the
buffer `d` (with `nwritten = d.length` and the position advanced), and
reading `d.length` bytes back from offset 0 returns `d` byte for byte;
a `pwrite` at an offset strictly past the current length zero-fills the
gap, so reading the gap afterwards returns all-zero bytes; and reads clamp
silently to the available length without error. -/
theorem c7_write_read_roundtrip :
    (∀ d : List Nat,
      OpenFile.fd_write ⟨⟨[], false⟩, 0⟩ d
          = ((.SUCCESS, d.length), ⟨⟨d, false⟩, d.length⟩) ∧
      (OpenFile.fd_pread ⟨⟨d, false⟩, d.length⟩ d.length 0).1 = (.SUCCESS, d)) ∧
    (∀ (data : List Nat) (pos off : Nat) (d : List Nat), data.length < off →
      (OpenFile.fd_pread (OpenFile.fd_pwrite ⟨⟨data, false⟩, pos⟩ d off).2
          (off - data.length) data.length).1
        = (.SUCCESS, List.replicate (off - data.length) 0)) ∧
    (∀ (st : OpenFileSt) (size : Nat),
      (OpenFile.fd_read st size).1.1 = .SUCCESS ∧
      ((OpenFile.fd_read st size).1.2).length
          = min size (st.file.data.length - st.file_pos)) := by
  refine ⟨?_, ?_, ?_⟩
  · intro d
    constructor
    · unfold OpenFile.fd_write bufferSetAt dataResize
      rcases Nat.eq_zero_or_pos d.length with h0 | hpos
      · have hd : d = [] := List.length_eq_zero.mp h0
        subst hd
        simp
      · have h1 : ¬ d.length = 0 := Nat.pos_iff_ne_zero.mp hpos
        have h2 : ¬ (0 = d.length) := by omega
        simp [hpos, h1, h2, List.drop_replicate]
    · unfold OpenFile.fd_pread
      simp
  · intro data pos off d hoff
    have hgrow : data.length < off + d.length := by omega
    have hne : ¬ data.length = off + d.length := by omega
    have hlt : ¬ off + d.length < data.length := by omega
    have hsplit :
        (data ++ List.replicate (off + d.length - data.length) 0).take off
          = data ++ List.replicate (off - data.length) 0 := by
      rw [List.take_append_eq_append_take, List.take_of_length_le (by omega),
          List.take_replicate]
      congr 1
      congr 1
      omega
    have hdropall :
        (data ++ List.replicate (off + d.length - data.length) 0).drop (off + d.length)
          = [] := by
      apply List.drop_eq_nil_of_le
      simp
      omega
    have hw : (OpenFile.fd_pwrite ⟨⟨data, false⟩, pos⟩ d off).2
        = ⟨⟨data ++ (List.replicate (off - data.length) 0 ++ d), false⟩, pos⟩ := by
      unfold OpenFile.fd_pwrite bufferSetAt dataResize
      simp [hgrow, hne, hlt, hsplit, hdropall]
    rw [hw]
    unfold OpenFile.fd_pread
    rw [List.drop_left]
    simp [List.take_append_eq_append_take, List.take_replicate]
  · intro st size
    unfold OpenFile.fd_read
    simp [Nat.min_comm]

/-- **C7, witness** instantiating the gap part at a concrete write past the
end of a one-byte file. -/
theorem c7_write_read_roundtrip_witness :
    OpenFile.fd_write ⟨⟨[], false⟩, 0⟩ [4, 5]
        = ((.SUCCESS, 2), ⟨⟨[4, 5], false⟩, 2⟩) ∧
    (OpenFile.fd_pread (OpenFile.fd_pwrite ⟨⟨[1], false⟩, 0⟩ [7] 3).2 2 1).1
        = (.SUCCESS, [0, 0]) := by
  exact ⟨(c7_write_read_roundtrip.1 [4, 5]).1,
         c7_write_read_roundtrip.2.1 [1] 0 3 [7] (by decide)⟩

/-! ## Claim C1 -/

theorem processComponents_eq_foldl (cs : List Name) :
    ∀ acc, processComponents cs acc = cs.foldl specNormalizeStep (some acc) := by
  induction cs with
  | nil => intro acc; simp [processComponents]
  | cons c cs ih =>
    intro acc
    unfold processComponents
    by_cases hskip : c = [] ∨ c = ['.']
    · rw [if_pos hskip, ih]
      simp [specNormalizeStep, hskip]
    · rw [if_neg hskip]
      by_cases hdd : c = ['.', '.']
      · rw [if_pos hdd]
        cases acc with
        | nil =>
          simp only [List.foldl_cons, specNormalizeStep, hskip, if_neg, hdd, if_pos]
          clear ih
          induction cs with
          | nil => simp
          | cons c' cs' ih' => simpa [specNormalizeStep] using ih'
        | cons a as =>
          rw [ih]
          simp [specNormalizeStep, hskip, hdd]
      · rw [if_neg hdd, ih]
        simp [specNormalizeStep, hskip, hdd]

theorem realCount_cons (c : Name) (cs : List Name) :
    realCount (c :: cs)
      = realCount cs + (if c ≠ [] ∧ c ≠ ['.'] ∧ c ≠ ['.', '.'] then 1 else 0) := by
  by_cases h : c ≠ [] ∧ c ≠ ['.'] ∧ c ≠ ['.', '.'] <;>
    simp [realCount, List.countP_cons, h]

theorem dotdotCount_cons (c : Name) (cs : List Name) :
    dotdotCount (c :: cs) = dotdotCount cs + (if c = ['.', '.'] then 1 else 0) := by
  by_cases h : c = ['.', '.'] <;> simp [dotdotCount, List.countP_cons, h]

theorem processComponents_eq_none_iff (cs : List Name) :
    ∀ acc, processComponents cs acc = none ↔
      ∃ k, acc.length + realCount (cs.take k) < dotdotCount (cs.take k) := by
  induction cs with
  | nil =>
    intro acc
    simp [processComponents, realCount, dotdotCount]
  | cons c cs ih =>
    intro acc
    unfold processComponents
    by_cases hskip : c = [] ∨ c = ['.']
    · have hr : (if c ≠ [] ∧ c ≠ ['.'] ∧ c ≠ ['.', '.'] then 1 else 0) = 0 := by
        rcases hskip with h | h <;> simp [h]
      have hd : (if c = ['.', '.'] then 1 else 0) = 0 := by
        rcases hskip with h | h <;> simp [h]
      rw [if_pos hskip, ih]
      constructor
      · rintro ⟨k, hk⟩
        refine ⟨k + 1, ?_⟩
        rw [List.take_succ_cons, realCount_cons, dotdotCount_cons, hr, hd]
        omega
      · rintro ⟨k, hk⟩
        cases k with
        | zero => simp [realCount, dotdotCount] at hk
        | succ k =>
          refine ⟨k, ?_⟩
          rw [List.take_succ_cons, realCount_cons, dotdotCount_cons, hr, hd] at hk
          omega
    · rw [if_neg hskip]
      by_cases hdd : c = ['.', '.']
      · have hr : (if c ≠ [] ∧ c ≠ ['.'] ∧ c ≠ ['.', '.'] then 1 else 0) = 0 := by
          simp [hdd]
        have hd : (if c = ['.', '.'] then 1 else 0) = 1 := by simp [hdd]
        rw [if_pos hdd]
        cases acc with
        | nil =>
          simp only [true_iff]
          refine ⟨1, ?_⟩
          simp only [List.take_succ_cons, List.take_zero, realCount_cons,
            dotdotCount_cons, hr, hd]
          simp [realCount, dotdotCount]
        | cons a as =>
          rw [ih]
          have hlen : (a :: as).dropLast.length = as.length := by simp
          rw [hlen]
          constructor
          · rintro ⟨k, hk⟩
            refine ⟨k + 1, ?_⟩
            rw [List.take_succ_cons, realCount_cons, dotdotCount_cons, hr, hd]
            simp only [List.length_cons]
            omega
          · rintro ⟨k, hk⟩
            cases k with
            | zero => simp [realCount, dotdotCount] at hk
            | succ k =>
              refine ⟨k, ?_⟩
              rw [List.take_succ_cons, realCount_cons, dotdotCount_cons, hr, hd] at hk
              simp only [List.length_cons] at hk
              omega
      · have hcnot : ¬ (c = [] ∨ c = ['.']) := hskip
        push_neg at hcnot
        have hr : (if c ≠ [] ∧ c ≠ ['.'] ∧ c ≠ ['.', '.'] then 1 else 0) = 1 := by
          simp [hcnot.1, hcnot.2, hdd]
        have hd : (if c = ['.', '.'] then 1 else 0) = 0 := by simp [hdd]
        rw [if_neg hdd, ih]
        constructor
        · rintro ⟨k, hk⟩
          refine ⟨k + 1, ?_⟩
          rw [List.take_succ_cons, realCount_cons, dotdotCount_cons, hr, hd]
          simp only [List.length_append, List.length_cons, List.length_nil] at hk
          omega
        · rintro ⟨k, hk⟩
          cases k with
          | zero => simp [realCount, dotdotCount] at hk
          | succ k =>
            refine ⟨k, ?_⟩
            rw [List.take_succ_cons, realCount_cons, dotdotCount_cons, hr, hd] at hk
            simp only [List.length_append, List.length_cons, List.length_nil]
            omega

/-- **C1.**  The path parser: a string starting with `'/'` is rejected
with NOTCAPABLE; otherwise a string containing a NUL byte is rejected with
INVAL; otherwise the string is split on `'/'`, empty and `"."` components
are dropped, each `".."` pops the last retained component with NOTCAPABLE
when there is nothing to pop (equivalently: the parse fails with
NOTCAPABLE exactly when some prefix of the split has more `".."`s than
retained components, i.e. would lexically ascend above the confinement
root, independent of what exists in the tree); the produced `Path` records
whether the string ended with `'/'`. -/
theorem c1_path_parse (p : List Char) :
    (p.head? = some '/' → Path.fromStr p = (.NOTCAPABLE, none)) ∧
    (p.head? ≠ some '/' → nul ∈ p → Path.fromStr p = (.INVAL, none)) ∧
    (p.head? ≠ some '/' → nul ∉ p →
      Path.fromStr p =
        (match specNormalize (splitOnSlash p) with
         | none => (Errno.NOTCAPABLE, none)
         | some parts => (Errno.SUCCESS, some ⟨parts, endsWithSlash p⟩))) ∧
    (p.head? ≠ some '/' → nul ∉ p →
      (Path.fromStr p = (.NOTCAPABLE, none) ↔ ascendsAboveRoot (splitOnSlash p))) := by
  refine ⟨?_, ?_, ?_, ?_⟩
  · intro h
    simp only [Path.fromStr]
    rw [if_pos (show (p.head? == some '/') = true by simp [h])]
  · intro h hmem
    simp only [Path.fromStr]
    rw [if_neg (show ¬ (p.head? == some '/') = true by simp [h]),
        if_pos (show p.contains nul = true from List.elem_iff.mpr hmem)]
  · intro h hmem
    simp only [Path.fromStr]
    rw [if_neg (show ¬ (p.head? == some '/') = true by simp [h]),
        if_neg (show ¬ p.contains nul = true from fun hx => hmem (List.elem_iff.mp hx)),
        processComponents_eq_foldl]
    rfl
  · intro h hmem
    have hball := processComponents_eq_none_iff (splitOnSlash p) []
    simp only [Path.fromStr]
    rw [if_neg (show ¬ (p.head? == some '/') = true by simp [h]),
        if_neg (show ¬ p.contains nul = true from fun hx => hmem (List.elem_iff.mp hx))]
    cases hpc : processComponents (splitOnSlash p) [] with
    | none =>
      rw [hpc] at hball
      simp only [true_iff, List.length_nil, Nat.zero_add] at hball
      simpa [ascendsAboveRoot] using hball
    | some parts =>
      rw [hpc] at hball
      simp only [reduceCtorEq, false_iff, List.length_nil, Nat.zero_add,
        not_exists] at hball
      simp only [Prod.mk.injEq, reduceCtorEq, and_false, false_iff]
      simpa [ascendsAboveRoot] using hball

/-- **C1, witness**: the three rejection modes and one success at concrete
inputs, through the parser theorem. -/
theorem c1_path_parse_witness :
    Path.fromStr ['/', 'a'] = (.NOTCAPABLE, none) ∧
    Path.fromStr ['a', nul] = (.INVAL, none) ∧
    Path.fromStr ['a', '/', '.', '.', '/', '.', '.'] = (.NOTCAPABLE, none) := by
  refine ⟨(c1_path_parse ['/', 'a']).1 rfl,
          (c1_path_parse ['a', nul]).2.1 (by decide) (by decide),
          ((c1_path_parse _).2.2.2 (by decide) (by decide)).mpr ⟨3, by decide⟩⟩

/-! ## Claim C6 -/

theorem issueSeq_length (k : Nat) : ∀ s, (issueSeq s k).length = k := by
  induction k with
  | zero => intro s; rfl
  | succ k ih => intro s; simp [issueSeq, ih]

theorem issueSeq_get? (k : Nat) : ∀ (s : Sys) (i : Nat), i < k →
    (issueSeq s k).get? i = some (s.next_ino + i) := by
  induction k with
  | zero => intro s i hi; exact absurd hi (Nat.not_lt_zero i)
  | succ k ih =>
    intro s i hi
    cases i with
    | zero => simp [issueSeq, issue_ino]
    | succ i =>
      simp only [issueSeq, List.get?_cons_succ]
      rw [ih _ i (Nat.lt_of_succ_lt_succ hi)]
      simp [issue_ino]
      omega

theorem root_ino_not_issued (k : Nat) : root_ino ∉ issueSeq initial_sys k := by
  intro hmem
  obtain ⟨i, hi⟩ := List.get?_of_mem hmem
  have hik : i < k := by
    by_contra hge
    rw [List.get?_eq_none.mpr (by rw [issueSeq_length]; omega)] at hi
    exact Option.noConfusion hi
  rw [issueSeq_get? k initial_sys i hik] at hi
  simp [initial_sys, root_ino] at hi

/-- **C6.**  `fd_readdir_single` is a stateless position-indexed iterator:
cookie 0 yields `"."` with the directory's own ino and next cookie 1;
cookie 1 yields `".."` with `parent_ino()` — the parent's ino, or the
reserved root ino when parentless; cookie `n` with `2 ≤ n < size + 2`
yields the `(n-2)`-th entry in insertion order with next cookie `n + 1`;
any cookie at or past `size + 2` ends the enumeration without error.
Moreover inos are issued monotonically one at a time starting at 1 (so
they are globally unique), and the reserved root ino 0 is never issued. -/
theorem c6_readdir_and_ino (h : Heap) (dirIno : Nat)
    (contents : List (Name × Nat)) (parent : Option Nat)
    (hdir : heapGet h dirIno = some (.directory contents parent)) :
    (fd_readdir_single h dirIno 0
        = (.SUCCESS, some ⟨1, dirIno, dotName, .directory⟩)) ∧
    (fd_readdir_single h dirIno 1
        = (.SUCCESS, some ⟨2, parent_ino parent, dotdotName, .directory⟩)) ∧
    (parent = none → parent_ino parent = root_ino) ∧
    (∀ q, parent = some q → parent_ino parent = q) ∧
    (∀ n nm eIno en, 2 ≤ n → n < contents.length + 2 →
      contents.get? (n - 2) = some (nm, eIno) →
      heapGet h eIno = some en →
      fd_readdir_single h dirIno n
        = (.SUCCESS, some ⟨n + 1, eIno, nm, en.filetype⟩)) ∧
    (∀ n, contents.length + 2 ≤ n →
      fd_readdir_single h dirIno n = (.SUCCESS, none)) ∧
    root_ino = 0 ∧
    (∀ (s : Sys) (k i : Nat), i < k →
      (issueSeq s k).get? i = some (s.next_ino + i)) ∧
    (∀ k, root_ino ∉ issueSeq initial_sys k) := by
  refine ⟨?_, ?_, ?_, ?_, ?_, ?_, rfl, fun s k i hi => issueSeq_get? k s i hi,
          root_ino_not_issued⟩
  · unfold fd_readdir_single
    rw [hdir]
    simp
  · unfold fd_readdir_single
    rw [hdir]
    simp
  · intro hp; rw [hp]; rfl
  · intro q hp; rw [hp]; rfl
  · intro n nm eIno en h2 hlt hget hent
    have h0 : ¬ n = 0 := by omega
    have h1 : ¬ n = 1 := by omega
    have h3 : ¬ contents.length + 2 ≤ n := by omega
    rw [List.get?_eq_getElem?] at hget
    unfold fd_readdir_single
    rw [hdir]
    simp [h0, h1, h3, hget, hent]
  · intro n hge
    have h0 : ¬ n = 0 := by omega
    have h1 : ¬ n = 1 := by omega
    unfold fd_readdir_single
    rw [hdir]
    simp [h0, h1, hge]

/-- **C6, witness** on a concrete two-entry directory and the first three
issued inos. -/
theorem c6_readdir_and_ino_witness :
    fd_readdir_single [(5, .directory [(['x'], 7)] none), (7, .file [] false)] 5 0
        = (.SUCCESS, some ⟨1, 5, dotName, .directory⟩) ∧
    fd_readdir_single [(5, .directory [(['x'], 7)] none), (7, .file [] false)] 5 2
        = (.SUCCESS, some ⟨3, 7, ['x'], .regular_file⟩) ∧
    fd_readdir_single [(5, .directory [(['x'], 7)] none), (7, .file [] false)] 5 3
        = (.SUCCESS, none) ∧
    (issueSeq initial_sys 3).get? 2 = some 3 := by
  have hc := c6_readdir_and_ino
      [(5, .directory [(['x'], 7)] none), (7, .file [] false)] 5 [(['x'], 7)] none rfl
  exact ⟨hc.1,
         hc.2.2.2.2.1 2 ['x'] 7 (.file [] false) (by decide) (by decide) rfl rfl,
         hc.2.2.2.2.2.1 3 (by decide),
         hc.2.2.2.2.2.2.2.1 initial_sys 3 2 (by decide)⟩

/-! ## Parent lookups resolve to live directories -/

theorem parent_lookup_parent_is_dir {h : Heap} {self : Nat} {p : Path}
    {au : Bool} {pi : Nat}
    (hpe : ((get_parent_dir_and_entry_for_path h self p au).1).parent_entry = some pi) :
    ∃ c par, heapGet h pi = some (.directory c par) := by
  unfold get_parent_dir_and_entry_for_path at hpe
  split at hpe
  · simp at hpe
  · simp only at hpe
    split at hpe
    · simp at hpe
    · split at hpe
      · split at hpe
        · split at hpe
          · simp at hpe
          · simp only [Option.some.injEq] at hpe
            subst hpe
            exact ⟨_, _, by assumption⟩
        · simp only [Option.some.injEq] at hpe
          subst hpe
          exact ⟨_, _, by assumption⟩
      · simp at hpe

/-! ## Claim C8 -/

/-- **C8.**  `create_symlink(path, target)`: a target containing NUL or
beginning with `'/'` is rejected with INVAL before any path lookup, state
unchanged; when the path string ends with `'/'` no symlink is ever created
— NOENT if nothing occupies the final name, EXIST if a directory does,
NOTDIR otherwise; when the path does not end with `'/'`, an occupied name
fails EXIST and an unoccupied one gets a freshly allocated `Symlink` whose
target string is exactly the given target. -/
theorem c8_create_symlink (s : Sys) (self : Nat) (path_str target : List Char) :
    (target.contains nul = true ∨ target.head? = some '/' →
      create_symlink_for_path s self path_str target = ((.INVAL, none), s)) ∧
    (∀ (p : Path) (parentIno : Nat) (fn : Name) (ent : Option Nat),
      target.contains nul = false → target.head? ≠ some '/' →
      Path.fromStr path_str = (.SUCCESS, some p) →
      (get_parent_dir_and_entry_for_path s.heap self p true).1
          = ⟨.SUCCESS, some parentIno, some fn, ent⟩ →
      (p.is_dir = true → ent = none →
        create_symlink_for_path s self path_str target = ((.NOENT, none), s)) ∧
      (∀ eIno en, p.is_dir = true → ent = some eIno → heapGet s.heap eIno = some en →
        create_symlink_for_path s self path_str target
          = (((if en.filetype = .directory then Errno.EXIST else Errno.NOTDIR), none), s)) ∧
      (∀ eIno, p.is_dir = false → ent = some eIno →
        create_symlink_for_path s self path_str target = ((.EXIST, none), s)) ∧
      (p.is_dir = false → ent = none → heapGet s.heap s.next_ino = none →
        (create_symlink_for_path s self path_str target).1
            = (.SUCCESS, some s.next_ino) ∧
        heapGet (create_symlink_for_path s self path_str target).2.heap s.next_ino
            = some (.symlink target) ∧
        ∃ pc pp,
          heapGet (create_symlink_for_path s self path_str target).2.heap parentIno
              = some (.directory pc pp) ∧
          mapGet pc fn = some s.next_ino)) := by
  constructor
  · intro hbad
    have hcond : (target.contains nul || target.head? == some '/') = true := by
      rcases hbad with hb | hb
      · rw [hb]
        rfl
      · rw [hb]
        simp
    unfold create_symlink_for_path
    rw [hcond, if_pos rfl]
  · intro p parentIno fn ent ht1 ht2 hparse hplr
    have hcond : (target.contains nul || target.head? == some '/') = false := by
      rw [ht1]
      simp [ht2]
    refine ⟨?_, ?_, ?_, ?_⟩
    · intro hpd hent
      unfold create_symlink_for_path
      rw [hcond]
      rw [hparse]
      simp only [Bool.false_eq_true, if_false, hplr, hpd, if_true, hent]
    · intro eIno en hpd hent hen
      unfold create_symlink_for_path
      rw [hcond]
      rw [hparse]
      simp only [Bool.false_eq_true, if_false, hplr, hpd, if_true, hent, hen]
      by_cases he : en.filetype = .directory
      · simp [he]
      · simp [he]
    · intro eIno hpd hent
      unfold create_symlink_for_path
      rw [hcond]
      rw [hparse]
      simp only [Bool.false_eq_true, if_false, hplr, hpd, hent]
    · intro hpd hent hfresh
      obtain ⟨pc, pp, hpdir⟩ :=
        parent_lookup_parent_is_dir
          (show ((get_parent_dir_and_entry_for_path s.heap self p true).1).parent_entry
              = some parentIno by rw [hplr])
      have hne : parentIno ≠ s.next_ino := by
        intro he
        rw [he, hfresh] at hpdir
        exact Option.noConfusion hpdir
      have hred : create_symlink_for_path s self path_str target
          = ((.SUCCESS, some s.next_ino),
             { heap := heapSet (heapSet s.heap s.next_ino (.symlink target))
                 parentIno (.directory (mapSet pc fn s.next_ino) pp),
               next_ino := s.next_ino + 1 }) := by
        unfold create_symlink_for_path
        rw [hcond]
        rw [hparse]
        simp only [Bool.false_eq_true, if_false, hplr, hpd, hent, issue_ino]
        rw [heapGet_heapSet_ne _ _ (fun he => hne he.symm), hpdir]
      rw [hred]
      refine ⟨rfl, ?_, mapSet pc fn s.next_ino, pp, ?_, mapGet_mapSet_self pc fn s.next_ino⟩
      · rw [heapGet_heapSet_ne _ _ hne, heapGet_heapSet_self]
      · rw [heapGet_heapSet_self]

/-- **C8, witness**: concrete rejections and one concrete creation through
the theorem. -/
theorem c8_create_symlink_witness :
    create_symlink_for_path { heap := [(0, .directory [] none)], next_ino := 1 }
        0 ['l'] ['/', 't'] = ((.INVAL, none), { heap := [(0, .directory [] none)], next_ino := 1 }) ∧
    (create_symlink_for_path { heap := [(0, .directory [] none)], next_ino := 1 }
        0 ['l'] ['t']).1 = (.SUCCESS, some 1) := by
  constructor
  · exact (c8_create_symlink _ 0 ['l'] ['/', 't']).1 (Or.inr rfl)
  · refine ((c8_create_symlink { heap := [(0, .directory [] none)], next_ino := 1 }
        0 ['l'] ['t']).2 ⟨[['l']], false⟩ 0 ['l'] none rfl (by decide) (by decide)
        ?_).2.2.2 rfl rfl rfl |>.1
    simp [get_parent_dir_and_entry_for_path, resolve_path_from, heapGet, mapGet,
      Node.contents, Node.filetype]

/-! ## Claim C5 -/

/-- **C5, counterexample.**  With `allowDirectory = false` and a directory
source, `path_link` is claimed to fail PERM regardless of the target — but
when the target name is occupied by a directory the occupied-entry matrix
runs first and the call fails EXIST instead. -/
theorem c5_link_perm_counterexample :
    (path_link
        { heap := [(0, .directory [(['a'], 1)] none),
                   (1, .directory [] (some 0)),
                   (2, .directory [] none)],
          next_ino := 3 }
        0 ['a'] 2 false).1 = .EXIST ∧
    Errno.EXIST ≠ Errno.PERM := by
  constructor
  · simp [path_link, Path.fromStr, splitOnSlash, processComponents, endsWithSlash,
      nul, get_parent_dir_and_entry_for_path, resolve_path_from, heapGet, mapGet,
      Node.contents, Node.filetype, linkEntryCheck, linkOverwriteCheck]
  · decide

/-- **C5, amended.**  With `allowDirectory = false` and a directory source,
`path_link` never succeeds and leaves the tree unchanged; it fails PERM
when the target name is unoccupied, and with the occupied-entry matrix
error — EXIST for an existing directory, NOTDIR for an existing
non-directory — when the name is occupied. -/
theorem c5_link_dir_not_allowed_amended
    (s : Sys) (self : Nat) (path_str : List Char) (p : Path) (inode : Nat)
    (parentIno : Nat) (fn : Name) (ent : Option Nat) (inodeNode : Node)
    (hparse : Path.fromStr path_str = (.SUCCESS, some p))
    (hdir : p.is_dir = false)
    (hplr : (get_parent_dir_and_entry_for_path s.heap self p true).1
        = ⟨.SUCCESS, some parentIno, some fn, ent⟩)
    (hinode : heapGet s.heap inode = some inodeNode)
    (hIsDir : inodeNode.filetype = .directory) :
    (ent = none → path_link s self path_str inode false = (.PERM, s)) ∧
    (∀ eIno en, ent = some eIno → heapGet s.heap eIno = some en →
      path_link s self path_str inode false
        = ((if en.filetype = .directory then Errno.EXIST else Errno.NOTDIR), s)) ∧
    ((path_link s self path_str inode false).1 ≠ .SUCCESS ∧
     (path_link s self path_str inode false).2 = s) := by
  have h1 : ent = none → path_link s self path_str inode false = (.PERM, s) := by
    intro hent
    unfold path_link
    rw [hparse]
    simp only [hdir, Bool.false_eq_true, if_false, hplr, hinode, linkEntryCheck, hent,
      hIsDir]
    simp
  have hperm : ∀ eIno, ent = some eIno → heapGet s.heap eIno = none →
      path_link s self path_str inode false = (.PERM, s) := by
    intro eIno hent hen
    unfold path_link
    rw [hparse]
    simp only [hdir, Bool.false_eq_true, if_false, hplr, hinode, linkEntryCheck, hent,
      hen, hIsDir]
    simp
  have h2 : ∀ eIno en, ent = some eIno → heapGet s.heap eIno = some en →
      path_link s self path_str inode false
        = ((if en.filetype = .directory then Errno.EXIST else Errno.NOTDIR), s) := by
    intro eIno en hent hen
    unfold path_link
    rw [hparse]
    simp only [hdir, Bool.false_eq_true, if_false, hplr, hinode, linkEntryCheck, hent,
      hen]
    unfold linkOverwriteCheck
    rw [hIsDir]
    by_cases he : en.filetype = .directory
    · rw [he]
      simp
    · have he' : (en.filetype == Filetype.directory) = false := by
        simp [he]
      rw [he']
      simp [he]
  refine ⟨h1, h2, ?_⟩
  rcases hent : ent with _ | eIno
  · rw [h1 hent]
    exact ⟨by simp, rfl⟩
  · cases hen : heapGet s.heap eIno with
    | none =>
      rw [hperm eIno hent hen]
      exact ⟨by simp, rfl⟩
    | some en =>
      rw [h2 eIno en hent hen]
      refine ⟨?_, rfl⟩
      by_cases he : en.filetype = .directory <;> simp [he]

/-- **C5, witness** for the amended theorem: linking a directory with
`allowDirectory = false` at an unoccupied name fails PERM. -/
theorem c5_link_dir_not_allowed_witness :
    path_link
        { heap := [(0, .directory [] none), (2, .directory [] none)], next_ino := 3 }
        0 ['b'] 2 false
      = (.PERM, { heap := [(0, .directory [] none), (2, .directory [] none)], next_ino := 3 }) := by
  refine (c5_link_dir_not_allowed_amended
      { heap := [(0, .directory [] none), (2, .directory [] none)], next_ino := 3 }
      0 ['b'] ⟨[['b']], false⟩ 2 0 ['b'] none (.directory [] none)
      (by decide) rfl ?_ rfl rfl).1 rfl
  simp [get_parent_dir_and_entry_for_path, resolve_path_from, heapGet, mapGet,
    Node.contents, Node.filetype]

/-! ## Claim C4 -/

/-- When the overwrite check passes and the PERM guard does not fire,
`path_link` succeeds and stores the source ino itself under the final
name in the resolved parent directory. -/
theorem path_link_success_shape
    (s : Sys) (self : Nat) (path_str : List Char) (p : Path) (inode : Nat)
    (allow_dir : Bool) (parentIno : Nat) (fn : Name) (ent : Option Nat)
    (inodeNode : Node)
    (hparse : Path.fromStr path_str = (.SUCCESS, some p))
    (hdir : p.is_dir = false)
    (hplr : (get_parent_dir_and_entry_for_path s.heap self p true).1
        = ⟨.SUCCESS, some parentIno, some fn, ent⟩)
    (hinode : heapGet s.heap inode = some inodeNode)
    (hcheck : linkEntryCheck s.heap inodeNode allow_dir ent = none)
    (hperm : (!allow_dir && inodeNode.filetype == Filetype.directory) = false) :
    (path_link s self path_str inode allow_dir).1 = .SUCCESS ∧
    ∃ pc pp,
      heapGet (path_link s self path_str inode allow_dir).2.heap parentIno
          = some (.directory pc pp) ∧
      mapGet pc fn = some inode := by
  obtain ⟨pc, pp, hpdir⟩ :=
    parent_lookup_parent_is_dir
      (show ((get_parent_dir_and_entry_for_path s.heap self p true).1).parent_entry
          = some parentIno by rw [hplr])
  unfold path_link
  rw [hparse]
  simp only [hdir, Bool.false_eq_true, if_false, hplr, hinode, hcheck, hperm]
  cases inodeNode with
  | directory ic ip =>
    by_cases hip : inode = parentIno
    · subst hip
      simp only [heapGet_heapSet_self]
      exact ⟨trivial, mapSet ic fn inode, some inode, rfl,
        mapGet_mapSet_self ic fn inode⟩
    · simp only [heapGet_heapSet_ne _ _ hip, hpdir, heapGet_heapSet_self]
      exact ⟨trivial, mapSet pc fn inode, pp, rfl, mapGet_mapSet_self pc fn inode⟩
  | file d r =>
    simp only [hpdir, heapGet_heapSet_self]
    exact ⟨trivial, mapSet pc fn inode, pp, rfl, mapGet_mapSet_self pc fn inode⟩
  | symlink t =>
    simp only [hpdir, heapGet_heapSet_self]
    exact ⟨trivial, mapSet pc fn inode, pp, rfl, mapGet_mapSet_self pc fn inode⟩

/-- **C4, counterexample.**  Linking a directory over a non-empty directory
is claimed to fail NOTEMPTY, but with `allowDirectory = false` the code
returns EXIST for that combination. -/
theorem c4_link_overwrite_counterexample :
    (path_link
        { heap := [(0, .directory [(['a'], 1)] none),
                   (1, .directory [(['x'], 2)] (some 0)),
                   (2, .file [] false),
                   (3, .directory [] none)],
          next_ino := 4 }
        0 ['a'] 3 false).1 = .EXIST ∧
    Errno.EXIST ≠ Errno.NOTEMPTY := by
  constructor
  · simp [path_link, Path.fromStr, splitOnSlash, processComponents, endsWithSlash,
      nul, get_parent_dir_and_entry_for_path, resolve_path_from, heapGet, mapGet,
      Node.contents, Node.filetype, linkEntryCheck, linkOverwriteCheck]
  · decide

/-- **C4, amended.**  The `path_link` overwrite matrix for an occupied
target name: directory over non-empty directory fails NOTEMPTY *when
`allowDirectory` is set* (with `allowDirectory` unset it fails EXIST);
directory over empty directory with `allowDirectory` set replaces the
entry; directory over a non-directory fails NOTDIR; non-directory over a
directory fails ISDIR; regular file over regular file succeeds, storing
the source inode itself (same ino — identity, not merge) under the target
name; and every error case leaves the tree unchanged. -/
theorem c4_link_overwrite_amended
    (s : Sys) (self : Nat) (path_str : List Char) (p : Path) (inode : Nat)
    (allow_dir : Bool) (parentIno : Nat) (fn : Name) (entryIno : Nat)
    (inodeNode entryNode : Node)
    (hparse : Path.fromStr path_str = (.SUCCESS, some p))
    (hdir : p.is_dir = false)
    (hplr : (get_parent_dir_and_entry_for_path s.heap self p true).1
        = ⟨.SUCCESS, some parentIno, some fn, some entryIno⟩)
    (hinode : heapGet s.heap inode = some inodeNode)
    (hentry : heapGet s.heap entryIno = some entryNode) :
    (∀ ec ep, allow_dir = true → inodeNode.filetype = .directory →
      entryNode = .directory ec ep → ec ≠ [] →
      path_link s self path_str inode allow_dir = (.NOTEMPTY, s)) ∧
    (allow_dir = false → inodeNode.filetype = .directory →
      entryNode.filetype = .directory →
      path_link s self path_str inode allow_dir = (.EXIST, s)) ∧
    (∀ ep, allow_dir = true → inodeNode.filetype = .directory →
      entryNode = .directory [] ep →
      (path_link s self path_str inode allow_dir).1 = .SUCCESS ∧
      ∃ pc pp,
        heapGet (path_link s self path_str inode allow_dir).2.heap parentIno
            = some (.directory pc pp) ∧
        mapGet pc fn = some inode) ∧
    (inodeNode.filetype = .directory → entryNode.filetype ≠ .directory →
      path_link s self path_str inode allow_dir = (.NOTDIR, s)) ∧
    (inodeNode.filetype ≠ .directory → entryNode.filetype = .directory →
      path_link s self path_str inode allow_dir = (.ISDIR, s)) ∧
    (inodeNode.filetype = .regular_file → entryNode.filetype = .regular_file →
      (path_link s self path_str inode allow_dir).1 = .SUCCESS ∧
      ∃ pc pp,
        heapGet (path_link s self path_str inode allow_dir).2.heap parentIno
            = some (.directory pc pp) ∧
        mapGet pc fn = some inode) := by
  refine ⟨?_, ?_, ?_, ?_, ?_, ?_⟩
  · intro ec ep hallow hsrc hent hne
    unfold path_link
    rw [hparse]
    simp only [hdir, Bool.false_eq_true, if_false, hplr, hinode, linkEntryCheck, hentry,
      hallow, hent]
    unfold linkOverwriteCheck
    rw [hsrc]
    have hlen : ¬ ec.length = 0 := by
      intro h0
      exact hne (List.length_eq_zero.mp h0)
    simp [Node.filetype, hlen]
  · intro hallow hsrc htgt
    unfold path_link
    rw [hparse]
    simp only [hdir, Bool.false_eq_true, if_false, hplr, hinode, linkEntryCheck, hentry,
      hallow]
    unfold linkOverwriteCheck
    rw [hsrc, htgt]
    simp
  · intro ep hallow hsrc hent
    subst hallow
    subst hent
    refine path_link_success_shape s self path_str p inode true parentIno fn
        (some entryIno) inodeNode hparse hdir hplr hinode ?_ (by simp)
    simp only [linkEntryCheck]
    rw [hentry]
    show linkOverwriteCheck inodeNode (Node.directory [] ep) true = none
    unfold linkOverwriteCheck
    rw [hsrc]
    simp [Node.filetype]
  · intro hsrc htgt
    have htgt' : (entryNode.filetype == Filetype.directory) = false := by
      simp [htgt]
    unfold path_link
    rw [hparse]
    simp only [hdir, Bool.false_eq_true, if_false, hplr, hinode, linkEntryCheck, hentry]
    unfold linkOverwriteCheck
    rw [hsrc, htgt']
    simp
  · intro hsrc htgt
    have hsrc' : (inodeNode.filetype == Filetype.directory) = false := by
      simp [hsrc]
    unfold path_link
    rw [hparse]
    simp only [hdir, Bool.false_eq_true, if_false, hplr, hinode, linkEntryCheck, hentry]
    unfold linkOverwriteCheck
    rw [htgt, hsrc']
    simp
  · intro hsrc htgt
    have hperm : (!allow_dir && inodeNode.filetype == Filetype.directory) = false := by
      rw [hsrc]
      simp
    refine path_link_success_shape s self path_str p inode allow_dir parentIno fn
        (some entryIno) inodeNode hparse hdir hplr hinode ?_ hperm
    simp only [linkEntryCheck]
    rw [hentry]
    show linkOverwriteCheck inodeNode entryNode allow_dir = none
    unfold linkOverwriteCheck
    rw [hsrc, htgt]
    simp

/-- **C4, witness** for the amended theorem: linking a regular file over an
existing regular file replaces the entry by the source ino. -/
theorem c4_link_overwrite_witness :
    (path_link
        { heap := [(0, .directory [(['a'], 1)] none),
                   (1, .file [] false),
                   (2, .file [9] false)],
          next_ino := 3 }
        0 ['a'] 2 true).1 = .SUCCESS ∧
    ∃ pc pp,
      heapGet (path_link
          { heap := [(0, .directory [(['a'], 1)] none),
                     (1, .file [] false),
                     (2, .file [9] false)],
            next_ino := 3 }
          0 ['a'] 2 true).2.heap 0
          = some (.directory pc pp) ∧
      mapGet pc ['a'] = some 2 := by
  refine (c4_link_overwrite_amended
      { heap := [(0, .directory [(['a'], 1)] none),
                 (1, .file [] false),
                 (2, .file [9] false)],
        next_ino := 3 }
      0 ['a'] ⟨[['a']], false⟩ 2 true 0 ['a'] 1
      (.file [9] false) (.file [] false)
      (by decide) rfl ?_ rfl rfl).2.2.2.2.2 rfl rfl
  simp [get_parent_dir_and_entry_for_path, resolve_path_from, heapGet, mapGet,
    Node.contents, Node.filetype]

/-! ## Claim C2 -/

theorem chainName_ne {i j : Nat} (hij : i ≠ j) : chainName i ≠ chainName j := by
  intro he
  apply hij
  have hlen := congrArg List.length he
  simpa [chainName] using hlen

theorem splitOnSlash_no_slash (l : List Char) (h : '/' ∉ l) :
    splitOnSlash l = [l] := by
  induction l with
  | nil => rfl
  | cons c cs ih =>
    have hc : ¬ c = '/' := fun he => h (he ▸ List.mem_cons_self c cs)
    have hcs : '/' ∉ cs := fun hm => h (List.mem_cons_of_mem c hm)
    unfold splitOnSlash
    rw [ih hcs]
    simp [hc]

theorem fromStr_chainName (k : Nat) :
    Path.fromStr (chainName k) = (.SUCCESS, some ⟨[chainName k], false⟩) := by
  have hmem : ∀ c ∈ chainName k, c = 'a' := fun c hc => List.eq_of_mem_replicate hc
  have hslash : '/' ∉ chainName k := fun hm => by simpa using hmem '/' hm
  have hhead : (chainName k).head? = some 'a' := by
    simp [chainName, List.replicate_succ]
  have hcont : (chainName k).contains nul = false := by
    rw [Bool.eq_false_iff]
    intro hx
    have := hmem nul (List.elem_iff.mp hx)
    simp [nul] at this
  have hlast : endsWithSlash (chainName k) = false := by
    unfold endsWithSlash
    rw [chainName, List.replicate_succ']
    simp
  have hne1 : ¬ (chainName k = [] ∨ chainName k = ['.']) := by
    rintro (he | he) <;> simp [chainName, List.replicate_succ] at he
  have hne2 : ¬ chainName k = ['.', '.'] := by
    intro he
    simp [chainName, List.replicate_succ] at he
  unfold Path.fromStr
  rw [if_neg (show ¬ ((chainName k).head? == some '/') = true by simp [hhead]),
      if_neg (show ¬ (chainName k).contains nul = true by rw [hcont]; simp),
      splitOnSlash_no_slash _ hslash]
  unfold processComponents
  rw [if_neg hne1, if_neg hne2]
  unfold processComponents
  rw [hlast]
  rfl

theorem mapGet_append_some {xs : List (Name × Nat)} {k : Name} {v : Nat}
    (h : mapGet xs k = some v) (ys : List (Name × Nat)) :
    mapGet (xs ++ ys) k = some v := by
  induction xs with
  | nil => simp [mapGet] at h
  | cons hd tl ih =>
    obtain ⟨k', v'⟩ := hd
    simp only [mapGet, List.cons_append] at h ⊢
    by_cases hk : k' = k
    · rw [if_pos hk] at h ⊢
      exact h
    · rw [if_neg hk] at h ⊢
      exact ih h

theorem mapGet_append_none {xs : List (Name × Nat)} {k : Name}
    (h : mapGet xs k = none) (ys : List (Name × Nat)) :
    mapGet (xs ++ ys) k = mapGet ys k := by
  induction xs with
  | nil => simp
  | cons hd tl ih =>
    obtain ⟨k', v'⟩ := hd
    simp only [mapGet, List.cons_append] at h ⊢
    by_cases hk : k' = k
    · rw [if_pos hk] at h
      exact Option.noConfusion h
    · rw [if_neg hk] at h ⊢
      exact ih h

theorem mapGet_chainContents_out (n : Nat) : ∀ i, n < i →
    mapGet (chainContents n) (chainName i) = none := by
  induction n with
  | zero =>
    intro i hi
    unfold chainContents
    simp only [mapGet]
    rw [if_neg (chainName_ne (by omega))]
  | succ n ih =>
    intro i hi
    unfold chainContents
    rw [mapGet_append_none (ih i (by omega))]
    simp only [mapGet]
    rw [if_neg (chainName_ne (by omega))]

theorem mapGet_chainContents (n : Nat) : ∀ i, i ≤ n →
    mapGet (chainContents n) (chainName i) = some (i + 1) := by
  induction n with
  | zero =>
    intro i hi
    have : i = 0 := by omega
    subst this
    unfold chainContents
    simp [mapGet]
  | succ n ih =>
    intro i hi
    unfold chainContents
    by_cases hin : i ≤ n
    · exact mapGet_append_some (ih i hin) _
    · have : i = n + 1 := by omega
      subst this
      rw [mapGet_append_none (mapGet_chainContents_out n (n + 1) (by omega))]
      simp [mapGet]

theorem heapGet_append_some {xs : Heap} {k : Nat} {v : Node}
    (h : heapGet xs k = some v) (ys : Heap) :
    heapGet (xs ++ ys) k = some v := by
  induction xs with
  | nil => simp [heapGet] at h
  | cons hd tl ih =>
    obtain ⟨k', v'⟩ := hd
    simp only [heapGet, List.cons_append] at h ⊢
    by_cases hk : k' = k
    · rw [if_pos hk] at h ⊢
      exact h
    · rw [if_neg hk] at h ⊢
      exact ih h

theorem heapGet_append_none {xs : Heap} {k : Nat}
    (h : heapGet xs k = none) (ys : Heap) :
    heapGet (xs ++ ys) k = heapGet ys k := by
  induction xs with
  | nil => simp
  | cons hd tl ih =>
    obtain ⟨k', v'⟩ := hd
    simp only [heapGet, List.cons_append] at h ⊢
    by_cases hk : k' = k
    · rw [if_pos hk] at h
      exact Option.noConfusion h
    · rw [if_neg hk] at h ⊢
      exact ih h

theorem heapGet_map_range (g : Nat → Node) : ∀ (m j : Nat),
    heapGet ((List.range m).map fun i => (i + 1, g i)) (j + 1)
      = if j < m then some (g j) else none := by
  intro m
  induction m with
  | zero =>
    intro j
    simp [heapGet]
  | succ m ih =>
    intro j
    rw [List.range_succ, List.map_append]
    by_cases hj : j < m
    · rw [heapGet_append_some (by rw [ih j, if_pos hj])]
      rw [if_pos (by omega)]
    · rw [heapGet_append_none (by rw [ih j, if_neg hj])]
      simp only [List.map_cons, List.map_nil]
      unfold heapGet
      by_cases hjm : j = m
      · subst hjm
        rw [if_pos rfl, if_pos (by omega)]
      · rw [if_neg (by omega), if_neg (by omega)]
        rfl

theorem heapGet_chainHeap_zero (n : Nat) :
    heapGet (chainHeap n) 0 = some (.directory (chainContents n) none) := by
  simp [chainHeap, heapGet]

theorem heapGet_chainHeap_succ (n j : Nat) :
    heapGet (chainHeap n) (j + 1)
      = if j < n + 1 then some (chainNode n j) else none := by
  simp only [chainHeap, heapGet]
  rw [if_neg (by omega)]
  exact heapGet_map_range (chainNode n) (n + 1) j

theorem chain_resolve (n : Nat) :
    ∀ (k i d : Nat), n - i = k → i ≤ n → d ≤ SYMLOOP_MAX →
      resolve_path_from (chainHeap n) 0 [chainName i] false true d
        = if d + (n - i) ≤ SYMLOOP_MAX then (.SUCCESS, some (n + 1))
          else (.LOOP, none) := by
  intro k
  induction k with
  | zero =>
    intro i d hk hin hd
    have hnn : ¬ i < n := by omega
    have hm := mapGet_chainContents n i hin
    have hh : heapGet (chainHeap n) (i + 1) = some (.file [] false) := by
      rw [heapGet_chainHeap_succ, if_pos (by omega)]
      simp [chainNode, hnn]
    rw [resolve_path_from.eq_def]
    simp [heapGet_chainHeap_zero, Node.contents, hm, hh]
    rw [if_pos (by omega)]
    have hieq : i = n := by omega
    rw [hieq]
  | succ k ih =>
    intro i d hk hin hd
    have hiltn : i < n := by omega
    have hm := mapGet_chainContents n i (by omega)
    have hh : heapGet (chainHeap n) (i + 1)
        = some (.symlink (chainName (i + 1))) := by
      rw [heapGet_chainHeap_succ, if_pos (by omega)]
      simp [chainNode, hiltn]
    by_cases hd40 : SYMLOOP_MAX ≤ d
    · rw [resolve_path_from.eq_def]
      simp [heapGet_chainHeap_zero, Node.contents, hm, hh, partsToPathString, hd40]
      rw [if_neg (by omega)]
    · rw [resolve_path_from.eq_def]
      simp [heapGet_chainHeap_zero, Node.contents, hm, hh, partsToPathString, hd40,
        fromStr_chainName]
      rw [ih (i + 1) (d + 1) (by omega) (by omega) (by omega)]
      have heq : (d + 1) + (n - (i + 1)) = d + (n - i) := by omega
      rw [heq]

/-- **C2.**  The canonical chain of `n` symlinks (each hop re-parses the
target and recurses from the same containing directory with depth + 1):
with follow-final enabled, resolution succeeds and returns the real file
ending the chain whenever `n ≤ 40 = SYMLOOP_MAX`, and a chain of 41
symlinks fails with LOOP once the depth counter reaches 40. -/
theorem c2_symlink_chain (n : Nat) (hn : n ≤ SYMLOOP_MAX) :
    (resolve_path_from (chainHeap n) 0 [chainName 0] false true 0
        = (.SUCCESS, some (n + 1)) ∧
     heapGet (chainHeap n) (n + 1) = some (.file [] false)) ∧
    resolve_path_from (chainHeap 41) 0 [chainName 0] false true 0
        = (.LOOP, none) := by
  refine ⟨⟨?_, ?_⟩, ?_⟩
  · rw [chain_resolve n (n - 0) 0 0 rfl (Nat.zero_le n) (by omega)]
    rw [if_pos (by omega)]
  · rw [heapGet_chainHeap_succ, if_pos (by omega)]
    simp [chainNode]
  · rw [chain_resolve 41 41 0 0 rfl (by omega) (by simp [SYMLOOP_MAX])]
    rw [if_neg (by simp [SYMLOOP_MAX])]

/-- **C2, witness** at a chain of two symlinks. -/
theorem c2_symlink_chain_witness :
    2 ≤ SYMLOOP_MAX ∧
    ((resolve_path_from (chainHeap 2) 0 [chainName 0] false true 0
        = (.SUCCESS, some 3) ∧
      heapGet (chainHeap 2) 3 = some (.file [] false)) ∧
     resolve_path_from (chainHeap 41) 0 [chainName 0] false true 0
        = (.LOOP, none)) :=
  ⟨by decide, c2_symlink_chain 2 (by decide)⟩

end BrowserWasiShim
